import Mathlib

/-!
Verification development for the circle-detection pipeline in
`module/utils.py` (phase-coded circular Hough transform: `imfindcircles`,
`chaccum`, `chcenters`, `chradiiphcode`, `getGrayImage` and helpers).

The Python/numpy code is shallowly embedded:
* combinatorial/control parts (radius sampling, chunk index bookkeeping,
  image-shape dispatch) are computable Lean functions over `ℚ`, `ℕ`, `ℤ`;
* numerically transcendental parts (log-phase coding, complex votes,
  gradient magnitudes) are embedded over `ℝ`/`ℂ` with exact real arithmetic,
  standing in for IEEE float64; float-specific facts that matter to the
  claims (the value of `np.spacing`) are modelled explicitly;
* fallible code paths are embedded with `Except`.
-/

namespace BrgShoe

/-- Error outcomes of the embedded pipeline.  `indexError` models a Python
`IndexError` (e.g. reading `lnR[0]` of an empty array), `valueError` models a
`ValueError` raised by a library call (e.g. `range` with step 0, or
`skimage.morphology.reconstruction` rejecting a seed that exceeds its mask).
`configurationError` is the error class the specification describes for
invalid radius ranges; it is declared so theorems can speak about it, and the
embedded code never produces it (the source has no such validation). -/
inductive PipeErr where
  | indexError : PipeErr
  | valueError : PipeErr
  | configurationError : PipeErr
deriving DecidableEq

/-- Embedding of `np.arange(start, stop, step)` over exact rationals:
the samples `start + k*step` for `0 ≤ k < ⌈(stop - start)/step⌉`. -/
def npArange (start stop step : ℚ) : List ℚ :=
  (List.range (⌈(stop - start) / step⌉).toNat).map (fun k => start + step * k)

/-- The chunk start offsets of the edge-pixel loop in `chaccum`:
`range(0, lenE+1, xcStep)` (utils.py line 266). -/
def chunkStarts (xcStep lenE : ℕ) : List ℕ :=
  (List.range (lenE / xcStep + 1)).map (· * xcStep)

/-- The edge-pixel indices of the chunk starting at `i`: the Python slice
`Ex[i : min(i + xcStep - 1, lenE)]` (utils.py lines 269-271). -/
def chunkSliceIdx (xcStep lenE i : ℕ) : List ℕ :=
  (List.range (min (i + xcStep - 1) lenE - i)).map (i + ·)

/-- All edge-pixel indices processed by the chunked loop of `chaccum`, in order:
the concatenation of the chunk slices over all chunk starts. -/
def xcChunkIndices (xcStep lenE : ℕ) : List ℕ :=
  (chunkStarts xcStep lenE).flatMap (chunkSliceIdx xcStep lenE)

/-- A numpy ndarray as consumed by `getGrayImage`: its shape, whether its
dtype is `uint8`, and its (flattened) payload. -/
structure NpArr where
  shape : List ℕ
  uint8 : Bool
  data : List ℚ
deriving DecidableEq

/-- Embedding of `getGrayImage` (utils.py lines 146-157).  The BGR→gray
conversion is an external OpenCV call, abstracted as the `cvtColorGray`
parameter.  Note the source returns the input unchanged when `ndim` is
neither 3 nor 2: there is no validation branch. -/
def getGrayImage (cvtColorGray : NpArr → NpArr) (img : NpArr) : NpArr :=
  if img.shape.length = 3 then
    let g := cvtColorGray img
    if g.uint8 then { g with uint8 := false, data := g.data.map (· / 255) }
    else g
  else if img.shape.length = 2 then
    if img.uint8 then { img with uint8 := false, data := img.data.map (· / 255) }
    else img
  else img

/-- The raster-order (row-major) list of cell coordinates of an `M × N`
image window, as `(row, col)` pairs; matches the order `np.nonzero` reports
matching positions. -/
def winList (Mdim Ndim : ℕ) : List (ℤ × ℤ) :=
  (List.range Mdim).flatMap (fun r => (List.range Ndim).map (fun c => ((r : ℤ), (c : ℤ))))

noncomputable section
open scoped Classical

/-- Model of `np.spacing` on float64: exact at 0 (the smallest subnormal,
`2 ^ (-1074)`), and the order of magnitude of one ulp (`|x| · 2 ^ (-52)`)
elsewhere.  The claims depend only on its value at 0, its positivity and its
smallness relative to a normal `x`. -/
def npSpacingR (x : ℝ) : ℝ :=
  if x = 0 then (2 : ℝ) ^ (-1074 : ℤ) else |x| * (2 : ℝ) ^ (-52 : ℤ)

/-- Model of `np.max(x, 0)` applied to a scalar `x`: the second positional
argument of `np.max` is `axis`, and the numpy reduction special-cases 0-d
arrays by letting `axis` 0 (and -1) slip through for backwards
compatibility, returning the scalar itself.  It is NOT an elementwise
maximum with 0 (that would be `np.maximum`). -/
def npMax0d (x : ℝ) : ℝ := x

/-- The suppression level `chcenters` computes at utils.py line 321:
`np.max(suppThreshold - np.spacing(suppThreshold), 0)`. -/
def suppLevel (t : ℝ) : ℝ := npMax0d (t - npSpacingR t)

/-- Model of `np.round` on float64: round half to even. -/
def npRoundR (x : ℝ) : ℤ :=
  if x - ⌊x⌋ < 1/2 then ⌊x⌋
  else if 1/2 < x - ⌊x⌋ then ⌊x⌋ + 1
  else if Even ⌊x⌋ then ⌊x⌋ else ⌊x⌋ + 1

/-- Truncation toward zero, the behaviour of `np.asarray(-, dtype=np.int64)`
on floats. -/
def truncR (x : ℝ) : ℤ := if 0 ≤ x then ⌊x⌋ else -⌊-x⌋

/-- Index clamping used by `scipy.ndimage.convolve` with mode `nearest`. -/
def clampIdx (n : ℕ) (i : ℤ) : ℤ := max 0 (min i ((n : ℤ) - 1))

/-- Border reflection without edge repetition (`cv2.BORDER_REFLECT_101`,
the default of `cv2.filter2D`), for overhangs smaller than the image. -/
def reflect101 (n : ℕ) (i : ℤ) : ℤ :=
  if i < 0 then -i else if (n : ℤ) ≤ i then 2 * ((n : ℤ) - 1) - i else i

/-- Border reflection with edge repetition (mode `reflect`, the default
of `scipy.ndimage.maximum_filter`). -/
def reflectSym (n : ℕ) (i : ℤ) : ℤ :=
  if i < 0 then -i - 1 else if (n : ℤ) ≤ i then 2 * (n : ℤ) - 1 - i else i

/-- Maximum entry of a nonempty list of reals (`np.max`); junk on `[]`. -/
def listMaxD (l : List ℝ) : ℝ := l.foldl max l.headI

/-- 3×3 convolution with mode `nearest` boundary handling, as performed by
`scipy.ndimage.convolve` in `imgradient`: true convolution, so the kernel is
flipped relative to correlation. -/
def conv3 (k : Fin 3 → Fin 3 → ℚ) (A : ℤ → ℤ → ℝ) (Mdim Ndim : ℕ) : ℤ → ℤ → ℝ :=
  fun r c => ∑ a : Fin 3, ∑ b : Fin 3,
    A (clampIdx Mdim (r + 1 - (a : ℤ))) (clampIdx Ndim (c + 1 - (b : ℤ))) * (k a b : ℝ)

/-- The vertical Sobel kernel of `imgradient` (utils.py line 162):
`hy = -[[1,2,1],[0,0,0],[-1,-2,-1]]`. -/
def hyK : Fin 3 → Fin 3 → ℚ := ![![-1, -2, -1], ![0, 0, 0], ![1, 2, 1]]

/-- The horizontal Sobel kernel `hx = hy.T`. -/
def hxK : Fin 3 → Fin 3 → ℚ := ![![-1, 0, 1], ![-2, 0, 2], ![-1, 0, 1]]

/-- The log-phase code of `chaccum` (utils.py line 255):
`phi(r) = ((ln r - ln rFirst) / (ln rLast - ln rFirst)) * 2π - π`. -/
def phiCode (r rFirst rLast : ℝ) : ℝ :=
  (Real.log r - Real.log rFirst) / (Real.log rLast - Real.log rFirst) * (2 * Real.pi) - Real.pi

/-- The complex vote weights of `chaccum` (utils.py lines 254-258):
`w0 = exp(i·phi) / (2π·radius)`, one per radius sample; the phase map is
normalized by the first and last radius sample. -/
def w0List (samples : List ℚ) : List ℂ :=
  samples.map (fun r =>
    Complex.exp ((phiCode (r : ℝ) ((samples.headI : ℚ) : ℝ) ((samples.getLastD 0 : ℚ) : ℝ)) * Complex.I)
      / ((2 * Real.pi * (r : ℝ) : ℝ) : ℂ))

/-- One (edge pixel, radius) vote: the rounded candidate centre column `xc`,
row `yc`, and the complex weight `w` attached to the radius sample. -/
structure VotePair where
  xc : ℤ
  yc : ℤ
  w : ℂ

/-- The `inside` test of `chaccum` (utils.py line 293):
`(xc >= 1) & (xc <= N) & (yc >= 1) & (yc < M)`.  Note the asymmetry between
the x bound (`<= N`) and the y bound (`< M`). -/
def insideDomain (Mdim Ndim : ℕ) (p : VotePair) : Bool :=
  (1 ≤ p.xc) && (p.xc ≤ (Ndim : ℤ)) && (1 ≤ p.yc) && (p.yc < (Mdim : ℤ))

/-- The group-by-sum scatter of `accum` (utils.py lines 202-222): weights of
all pairs with the same `(xc, yc)` key are summed and the total is stored at
cell `[yc - 1, xc - 1]` (the function subtracts 1 from both coordinates). -/
def accum (pairs : List VotePair) : ℤ → ℤ → ℂ :=
  fun r c => ((pairs.filter (fun p => p.yc - 1 == r && p.xc - 1 == c)).map VotePair.w).sum

/-- The candidate centres of one chunk (utils.py lines 274-287): for each
edge pixel `(row, col)` and each polarity-adjusted radius `RR_j`, the centre
is the pixel minus `RR_j` times the unit gradient direction, rounded;
each candidate carries the weight `w0_j`. -/
def chunkPairs (RR : List ℚ) (w0 : List ℂ) (Gx Gy g : ℤ → ℤ → ℝ)
    (pixels : List (ℤ × ℤ)) : List VotePair :=
  pixels.flatMap (fun e =>
    (RR.zip w0).map (fun rw =>
      { xc := npRoundR ((e.2 : ℝ) - (rw.1 : ℝ) * (Gx e.1 e.2 / g e.1 e.2)),
        yc := npRoundR ((e.1 : ℝ) - (rw.1 : ℝ) * (Gy e.1 e.2 / g e.1 e.2)),
        w := rw.2 }))

/-- Embedding of `chaccum` (utils.py lines 225-311) on a 2-D float image
(for which `getGrayImage` is the identity).  The automatic Otsu edge
threshold is an external OpenCV call, abstracted as the `otsu` parameter
(the code always takes the automatic branch since `imfindcircles` never
passes `edgeThresh`).  Returns the complex accumulator and the gradient
magnitude, or the error the Python run raises:
`indexError` when the radius sample array is empty (`lnR[0]` at line 255),
`valueError` when `xcStep` is 0 (`range` with zero step at line 266). -/
def chaccumE (otsu : (ℤ → ℤ → ℝ) → ℝ) (A : ℤ → ℤ → ℝ) (Mdim Ndim : ℕ)
    (rmin rmax : ℚ) (bright : Bool) : Except PipeErr ((ℤ → ℤ → ℂ) × (ℤ → ℤ → ℝ)) :=
  let Gx := conv3 hxK A Mdim Ndim
  let Gy := conv3 hyK A Mdim Ndim
  let g := fun r c => Real.sqrt ((Gx r c) ^ 2 + (Gy r c) ^ 2)
  let Gmax := listMaxD ((winList Mdim Ndim).map (fun p => g p.1 p.2))
  let t := Gmax * otsu g
  let E := (winList Mdim Ndim).filter (fun p => decide (t < g p.1 p.2))
  let samples := npArange rmin (rmax + 1/10000) (1/2)
  if samples.isEmpty then .error .indexError
  else
    let RR := if bright then samples else samples.map (fun x => -x)
    let w0 := w0List samples
    let xcStep := 1000000 / samples.length
    if xcStep = 0 then .error .valueError
    else
      let lenE := E.length
      let Acc := (chunkStarts xcStep lenE).foldl
        (fun acc i =>
          let chunkPix := (chunkSliceIdx xcStep lenE i).filterMap (fun j => E.get? j)
          let pairs := chunkPairs RR w0 Gx Gy g chunkPix
          fun r c => acc r c + accum (pairs.filter (insideDomain Mdim Ndim)) r c)
        (fun _ _ => 0)
      .ok (Acc, g)

/-- 5×5 box smoothing of `chcenters` (utils.py lines 317-319):
`cv2.filter2D` with a uniform kernel and its default
`BORDER_REFLECT_101` border. -/
def boxFilter5 (H : ℤ → ℤ → ℝ) (Mdim Ndim : ℕ) : ℤ → ℤ → ℝ :=
  fun r c => (∑ a : Fin 5, ∑ b : Fin 5,
    H (reflect101 Mdim (r + (a : ℤ) - 2)) (reflect101 Ndim (c + (b : ℤ) - 2))) / 25

/-- Grayscale dilation by the cross-shaped (connectivity-1) footprint used
by `skimage.morphology.reconstruction`, restricted to the image window. -/
def dilateCross (f : ℤ → ℤ → ℝ) (Mdim Ndim : ℕ) : ℤ → ℤ → ℝ :=
  fun r c =>
    (([(r - 1, c), (r + 1, c), (r, c - 1), (r, c + 1)] : List (ℤ × ℤ)).filter
        (fun q => decide (0 ≤ q.1 ∧ q.1 < (Mdim : ℤ) ∧ 0 ≤ q.2 ∧ q.2 < (Ndim : ℤ)))).foldl
      (fun m q => max m (f q.1 q.2)) (f r c)

/-- Morphological reconstruction by dilation: iterate
`seed ← min(dilate(seed), mask)` to its fixpoint; `M·N + 1` sweeps suffice
since each sweep propagates information at least one cell along any
geodesic path. -/
def reconstructDil (seed mask : ℤ → ℤ → ℝ) (Mdim Ndim : ℕ) : ℤ → ℤ → ℝ :=
  (fun f => fun r c => min (dilateCross f Mdim Ndim r c) (mask r c))^[Mdim * Ndim + 1] seed

/-- The 9 offsets of a 3×3 neighbourhood. -/
def offsets9 : List (ℤ × ℤ) :=
  [(-1, -1), (-1, 0), (-1, 1), (0, -1), (0, 0), (0, 1), (1, -1), (1, 0), (1, 1)]

/-- `scipy.ndimage.maximum_filter(-, size=3)` with its default
mode `reflect` border (utils.py line 326). -/
def maxFilter3 (f : ℤ → ℤ → ℝ) (Mdim Ndim : ℕ) : ℤ → ℤ → ℝ :=
  fun r c =>
    (offsets9.map (fun d => f (reflectSym Mdim (r + d.1)) (reflectSym Ndim (c + d.2)))).foldl
      max (f (reflectSym Mdim r) (reflectSym Ndim c))

/-- The 8 neighbours of a cell (`skimage.measure.label` defaults to full
connectivity, which is 8-connectivity in 2-D). -/
def neighbors8 (p : ℤ × ℤ) : List (ℤ × ℤ) :=
  [(p.1 - 1, p.2 - 1), (p.1 - 1, p.2), (p.1 - 1, p.2 + 1), (p.1, p.2 - 1),
   (p.1, p.2 + 1), (p.1 + 1, p.2 - 1), (p.1 + 1, p.2), (p.1 + 1, p.2 + 1)]

/-- One step of connected-component closure: all mask cells of the window
that are in the current set or adjacent to it. -/
def compIter (bw : ℤ → ℤ → Prop) (Mdim Ndim : ℕ) (s : List (ℤ × ℤ)) : List (ℤ × ℤ) :=
  (winList Mdim Ndim).filter
    (fun q => decide (bw q.1 q.2) && (s.contains q || (neighbors8 q).any (s.contains ·)))

/-- The 8-connected component of `p` in the mask, by saturating the closure
step (`M·N + 1` steps reach the fixpoint). -/
def component (bw : ℤ → ℤ → Prop) (Mdim Ndim : ℕ) (p : ℤ × ℤ) : List (ℤ × ℤ) :=
  (compIter bw Mdim Ndim)^[Mdim * Ndim + 1] [p]

/-- `skimage.measure.label` + region extraction: scan the window in raster
order and collect the component of each yet-unlabelled mask cell, so
components are ordered by their first pixel (ascending label order, the
order `regionprops_table` reports). -/
def labelComponents (bw : ℤ → ℤ → Prop) (Mdim Ndim : ℕ) : List (List (ℤ × ℤ)) :=
  (winList Mdim Ndim).foldl
    (fun comps p =>
      if decide (bw p.1 p.2) && !(comps.any (·.contains p)) then
        comps ++ [component bw Mdim Ndim p]
      else comps)
    []

/-- Centroid of a component as `(row mean, col mean)` —
the `(centroid-0, centroid-1)` pair of `regionprops_table`. -/
def centroid (comp : List (ℤ × ℤ)) : ℝ × ℝ :=
  ((comp.map (fun q => (q.1 : ℝ))).sum / comp.length,
   (comp.map (fun q => (q.2 : ℝ))).sum / comp.length)

/-- Embedding of `chcenters` (utils.py lines 315-342).  Raises `valueError`
when the reconstruction seed `Hd - supp` exceeds its mask `Hd` somewhere
(the precondition check of `skimage.morphology.reconstruction`), which
happens exactly when the suppression level is negative.  Returns the centre
list in `(x, y)` order (the final `flipud` of the source) together with the
metrics, sorted by descending metric. -/
def chcentersE (H : ℤ → ℤ → ℝ) (Mdim Ndim : ℕ) (accumThresh : ℝ) :
    Except PipeErr (List (ℝ × ℝ) × List ℝ) :=
  let Hd := boxFilter5 H Mdim Ndim
  let supp := suppLevel accumThresh
  let seed := fun r c => Hd r c - supp
  if ∃ p ∈ winList Mdim Ndim, Hd p.1 p.2 < seed p.1 p.2 then .error .valueError
  else
    let HdRec := reconstructDil seed Hd Mdim Ndim
    let lm := maxFilter3 HdRec Mdim Ndim
    let mx := listMaxD ((winList Mdim Ndim).map (fun p => lm p.1 p.2))
    let bw := fun r c => mx / 3 < lm r c
    let cents := (labelComponents bw Mdim Ndim).map centroid
    let metric := cents.map (fun c0 => HdRec (truncR c0.1) (truncR c0.2))
    let sorted := (cents.zip metric).mergeSort (fun a b => decide (b.2 ≤ a.2))
    .ok (sorted.map (fun cm => (cm.1.2, cm.1.1)), sorted.map (·.2))

/-- Embedding of `chradiiphcode` (utils.py lines 345-353): for each centre
`(x, y)` read the phase of the accumulator at `[y, x]` and invert the
log-phase code using the endpoints of the radius range passed in. -/
def chradiiphcode (centers : List (ℝ × ℝ)) (accumMatrix : ℤ → ℤ → ℂ) (rmin rmax : ℝ) :
    List ℝ :=
  centers.map (fun c =>
    Real.exp ((Complex.arg (accumMatrix (truncR c.2) (truncR c.1)) + Real.pi) / (2 * Real.pi)
        * (Real.log rmax - Real.log rmin) + Real.log rmin))

/-- The matrix `imfindcircles` passes to the radius decoder: the magnitude
of the complex accumulator, re-read as a (real-valued) complex matrix —
utils.py line 365 rebinds `accumMatrix = abs(accumMatrix)` before line 375
calls `chradiiphcode` on it. -/
def absMatrixC (Acc : ℤ → ℤ → ℂ) : ℤ → ℤ → ℂ :=
  fun r c => ((Complex.abs (Acc r c) : ℝ) : ℂ)

/-- The parallel output sequences of `imfindcircles`. -/
structure CirclesResult where
  centers : List (ℝ × ℝ)
  radii : List ℝ
  metric : List ℝ

/-- Embedding of `imfindcircles` (utils.py lines 356-377): accumulate,
take the magnitude, extract centres with `accumThresh = 1 - sensitivity`,
keep candidates with `metric >= accumThresh`, then decode radii from the
(magnitude) matrix. -/
def imfindcirclesE (otsu : (ℤ → ℤ → ℝ) → ℝ) (A : ℤ → ℤ → ℝ) (Mdim Ndim : ℕ)
    (rmin rmax : ℚ) (sensitivity : ℝ) : Except PipeErr CirclesResult :=
  match chaccumE otsu A Mdim Ndim rmin rmax true with
  | .error e => .error e
  | .ok (Acc, _g) =>
    let accumThresh := 1 - sensitivity
    let Habs := fun r c => (Complex.abs (Acc r c) : ℝ)
    match chcentersE Habs Mdim Ndim accumThresh with
    | .error e => .error e
    | .ok (cens, mets) =>
      let kept := (cens.zip mets).filter (fun cm => decide (accumThresh ≤ cm.2))
      let centers := kept.map (·.1)
      let radii := chradiiphcode centers (absMatrixC Acc) (rmin : ℝ) (rmax : ℝ)
      .ok ⟨centers, radii, kept.map (·.2)⟩

/-- A fixed stand-in value for the external Otsu threshold call, used to
instantiate closed evaluations (its value is irrelevant there: it is
multiplied by a zero gradient maximum). -/
def otsu0 : (ℤ → ℤ → ℝ) → ℝ := fun _ => 0

/-- The constant (flat/uniform) image of intensity `v`. -/
def constImg (v : ℝ) : ℤ → ℤ → ℝ := fun _ _ => v

end

/-! Helper lemmas shared by several claim proofs. -/

theorem foldl_id {α β : Type} (f : α → β → α) (h : ∀ a b, f a b = a) :
    ∀ (l : List β) (z : α), l.foldl f z = z := by
  intro l
  induction l with
  | nil => intro z; rfl
  | cons b t ih => intro z; rw [List.foldl_cons, h]; exact ih z

theorem foldl_max_eq {β : Type} (g : β → ℝ) (a : ℝ) :
    ∀ (l : List β), (∀ x ∈ l, g x = a) → l.foldl (fun m x => max m (g x)) a = a := by
  intro l
  induction l with
  | nil => intro _; rfl
  | cons q t ih =>
    intro h
    rw [List.foldl_cons, h q (by simp), max_self]
    exact ih (fun x hx => h x (by simp [hx]))

theorem listMaxD_all_eq (l : List ℝ) (a : ℝ) (h : ∀ x ∈ l, x = a) (hne : l ≠ []) :
    listMaxD l = a := by
  cases l with
  | nil => exact absurd rfl hne
  | cons b t =>
    have hb : b = a := h b (by simp)
    rw [listMaxD, List.headI, List.foldl_cons, hb, max_self]
    exact foldl_max_eq id a t (fun x hx => h x (by simp [hx]))

theorem mem_winList (Mdim Ndim r c : ℕ) (hr : r < Mdim) (hc : c < Ndim) :
    ((r : ℤ), (c : ℤ)) ∈ winList Mdim Ndim := by
  rw [winList]
  simp only [List.mem_flatMap, List.mem_map, List.mem_range]
  exact ⟨r, hr, (c : ℤ), List.mem_flatMap.mpr ⟨c, List.mem_range.mpr hc, by simp⟩, rfl⟩

theorem winList_ne_nil (Mdim Ndim : ℕ) (hM : 0 < Mdim) (hN : 0 < Ndim) :
    winList Mdim Ndim ≠ [] :=
  List.ne_nil_of_mem (mem_winList Mdim Ndim 0 0 hM hN)

theorem conv3_hx_const (v : ℝ) (Mdim Ndim : ℕ) :
    conv3 hxK (constImg v) Mdim Ndim = fun _ _ => 0 := by
  funext r c
  simp only [conv3, constImg, Fin.sum_univ_three]
  norm_num [show hxK 0 0 = -1 from rfl, show hxK 0 1 = 0 from rfl, show hxK 0 2 = 1 from rfl,
    show hxK 1 0 = -2 from rfl, show hxK 1 1 = 0 from rfl, show hxK 1 2 = 2 from rfl,
    show hxK 2 0 = -1 from rfl, show hxK 2 1 = 0 from rfl, show hxK 2 2 = 1 from rfl]
  try ring

theorem conv3_hy_const (v : ℝ) (Mdim Ndim : ℕ) :
    conv3 hyK (constImg v) Mdim Ndim = fun _ _ => 0 := by
  funext r c
  simp only [conv3, constImg, Fin.sum_univ_three]
  norm_num [show hyK 0 0 = -1 from rfl, show hyK 0 1 = -2 from rfl, show hyK 0 2 = -1 from rfl,
    show hyK 1 0 = 0 from rfl, show hyK 1 1 = 0 from rfl, show hyK 1 2 = 0 from rfl,
    show hyK 2 0 = 1 from rfl, show hyK 2 1 = 2 from rfl, show hyK 2 2 = 1 from rfl]
  try ring

theorem boxFilter5_zero (Mdim Ndim : ℕ) :
    boxFilter5 (fun _ _ => 0) Mdim Ndim = fun _ _ => 0 := by
  funext r c
  simp [boxFilter5]

theorem dilateCross_const (a : ℝ) (Mdim Ndim : ℕ) :
    dilateCross (fun _ _ => a) Mdim Ndim = fun _ _ => a := by
  funext r c
  rw [dilateCross]
  exact foldl_max_eq (fun q => a) a _ (fun x _ => rfl)

theorem reconstructDil_const (a : ℝ) (ha : a ≤ 0) (Mdim Ndim : ℕ) :
    reconstructDil (fun _ _ => a) (fun _ _ => 0) Mdim Ndim = fun _ _ => a := by
  rw [reconstructDil]
  apply Function.iterate_fixed
  funext r c
  rw [dilateCross_const]
  exact min_eq_left ha

theorem maxFilter3_const (a : ℝ) (Mdim Ndim : ℕ) :
    maxFilter3 (fun _ _ => a) Mdim Ndim = fun _ _ => a := by
  funext r c
  rw [maxFilter3]
  have : ∀ l : List (ℤ × ℤ), (l.map (fun _ => a)).foldl max a = a := by
    intro l
    induction l with
    | nil => rfl
    | cons q t ih => rw [List.map_cons, List.foldl_cons, max_self]; exact ih
  exact this offsets9

theorem labelComponents_empty (bw : ℤ → ℤ → Prop) (Mdim Ndim : ℕ)
    (h : ∀ r c, ¬ bw r c) : labelComponents bw Mdim Ndim = [] := by
  rw [labelComponents]
  apply foldl_id
  intro comps p
  rw [if_neg]
  simp only [Bool.and_eq_true, decide_eq_true_eq]
  intro hcon
  exact h p.1 p.2 hcon.1

theorem two_zpow_neg52_pos : (0 : ℝ) < (2 : ℝ) ^ (-52 : ℤ) := by positivity

theorem two_zpow_neg52_lt_one : (2 : ℝ) ^ (-52 : ℤ) < 1 := by
  have h : ((2 : ℝ) ^ (52 : ℕ))⁻¹ < 1 := by norm_num
  calc (2 : ℝ) ^ (-52 : ℤ) = ((2 : ℝ) ^ ((52 : ℕ) : ℤ))⁻¹ := by
        rw [← zpow_neg]
        norm_num
    _ = ((2 : ℝ) ^ (52 : ℕ))⁻¹ := by rw [zpow_natCast]
    _ < 1 := h

theorem samples_0_1 : npArange 0 (1 + 1/10000) (1/2) = [0, 1/2, 1] := by
  have h : ⌈((1 + 1/10000 : ℚ) - 0) / (1/2)⌉ = 3 := by
    rw [Int.ceil_eq_iff]
    norm_num
  rw [npArange, h]
  simp [List.range_succ]
  try norm_num

theorem samples_1_2 : npArange 1 (2 + 1/10000) (1/2) = [1, 3/2, 2] := by
  have h : ⌈((2 + 1/10000 : ℚ) - 1) / (1/2)⌉ = 3 := by
    rw [Int.ceil_eq_iff]
    norm_num
  rw [npArange, h]
  simp [List.range_succ]
  try norm_num

theorem samples_1_32 : npArange 1 (3/2 + 1/10000) (1/2) = [1, 3/2] := by
  have h : ⌈((3/2 + 1/10000 : ℚ) - 1) / (1/2)⌉ = 2 := by
    rw [Int.ceil_eq_iff]
    norm_num
  rw [npArange, h]
  simp [List.range_succ]
  try norm_num

/-- On a flat image the gradient vanishes, the edge set is empty for any
Otsu value, and `chaccum` returns the all-zero accumulator — matching the
degenerate-input contract. -/
theorem chaccumE_flat (otsu : (ℤ → ℤ → ℝ) → ℝ) (v : ℝ) (Mdim Ndim : ℕ)
    (hM : 0 < Mdim) (hN : 0 < Ndim) (rmin rmax : ℚ)
    (hs : npArange rmin (rmax + 1/10000) (1/2) ≠ [])
    (hstep : 1000000 / (npArange rmin (rmax + 1/10000) (1/2)).length ≠ 0) :
    chaccumE otsu (constImg v) Mdim Ndim rmin rmax true
      = .ok (fun _ _ => 0, fun _ _ => 0) := by
  rw [chaccumE, conv3_hx_const, conv3_hy_const]
  have hg : (fun r c => Real.sqrt (((fun _ _ => (0:ℝ)) r c) ^ 2 + ((fun _ _ => (0:ℝ)) r c) ^ 2))
      = fun (_ _ : ℤ) => (0 : ℝ) := by
    funext r c
    simp
  rw [hg]
  have hmax : listMaxD ((winList Mdim Ndim).map (fun p => (fun (_ _ : ℤ) => (0:ℝ)) p.1 p.2)) = 0 := by
    apply listMaxD_all_eq
    · intro x hx
      simp only [List.mem_map] at hx
      obtain ⟨p, _, hp⟩ := hx
      exact hp.symm
    · intro hnil
      exact winList_ne_nil Mdim Ndim hM hN (List.map_eq_nil_iff.mp hnil)
  rw [hmax, zero_mul]
  have hE : (winList Mdim Ndim).filter (fun p => decide ((0:ℝ) < (fun (_ _ : ℤ) => (0:ℝ)) p.1 p.2)) = [] := by
    apply List.filter_eq_nil_iff.mpr
    intro p _
    simp
  rw [hE]
  have hsemp : (npArange rmin (rmax + 1/10000) (1/2)).isEmpty = false := by
    cases hcase : npArange rmin (rmax + 1/10000) (1/2) with
    | nil => exact absurd hcase hs
    | cons a t => rfl
  rw [hsemp]
  simp only [Bool.false_eq_true, if_false]
  rw [if_neg hstep]
  rw [foldl_id]
  intro acc i
  funext r c
  have hpix : ∀ idxs : List ℕ,
      idxs.filterMap (fun j => ([] : List (ℤ × ℤ)).get? j) = [] := by
    intro idxs
    simp
  rw [List.length_nil, hpix]
  simp [accum, chunkPairs]

/-- When the radius sample list is empty (`maxRadius + 0.0001 ≤ minRadius`),
`chaccum` fails reading `lnR[0]` — an IndexError, for every image. -/
theorem chaccumE_empty_range (otsu : (ℤ → ℤ → ℝ) → ℝ) (A : ℤ → ℤ → ℝ)
    (Mdim Ndim : ℕ) (rmin rmax : ℚ) (bright : Bool)
    (h : rmax + 1/10000 ≤ rmin) :
    chaccumE otsu A Mdim Ndim rmin rmax bright = .error .indexError := by
  have hempty : npArange rmin (rmax + 1/10000) (1/2) = [] := by
    have hq : ((rmax + 1/10000) - rmin) / (1/2 : ℚ) ≤ 0 :=
      div_nonpos_of_nonpos_of_nonneg (sub_nonpos.mpr h) (by norm_num)
    have hc : ⌈((rmax + 1/10000) - rmin) / (1/2 : ℚ)⌉ ≤ 0 := by
      rw [Int.ceil_le]
      exact_mod_cast hq
    rw [npArange, Int.toNat_of_nonpos hc]
    rfl
  rw [chaccumE, hempty]
  rfl

/-- The phase the radius decoder reads from the magnitude matrix is zero,
so each decoded radius collapses to the geometric mean of the range. -/
theorem chradiiphcode_absMatrix (Acc : ℤ → ℤ → ℂ) (centers : List (ℝ × ℝ))
    (rmin rmax : ℝ) (h0 : 0 < rmin) (h1 : rmin ≤ rmax) :
    chradiiphcode centers (absMatrixC Acc) rmin rmax
      = centers.map (fun _ => Real.sqrt (rmin * rmax)) := by
  have hprod : (0 : ℝ) < rmin * rmax := mul_pos h0 (h0.trans_le h1)
  unfold chradiiphcode absMatrixC
  refine List.map_congr_left (fun c _ => ?_)
  have harg : Complex.arg ((Complex.abs (Acc (truncR c.2) (truncR c.1)) : ℝ) : ℂ) = 0 :=
    Complex.arg_ofReal_of_nonneg (AbsoluteValue.nonneg _ _)
  rw [harg]
  have hhalf : (0 + Real.pi) / (2 * Real.pi) = 1 / 2 := by
    rw [zero_add]
    field_simp
    ring
  rw [hhalf]
  have hlog : 1 / 2 * (Real.log rmax - Real.log rmin) + Real.log rmin
      = Real.log (rmin * rmax) * (1 / 2) := by
    rw [Real.log_mul h0.ne' (h0.trans_le h1).ne']
    ring
  rw [hlog, Real.sqrt_eq_rpow, Real.rpow_def_of_pos hprod]

/-- With a zero accumulator magnitude and a negative suppression level
(threshold 0, i.e. sensitivity 1), the reconstruction seed exceeds its mask
and `chcenters` raises — the skimage precondition failure. -/
theorem chcentersE_zero_err (Mdim Ndim : ℕ) (hM : 0 < Mdim) (hN : 0 < Ndim) (t : ℝ)
    (ht : t - npSpacingR t < 0) :
    chcentersE (fun _ _ => 0) Mdim Ndim t = .error .valueError := by
  have hsupp : suppLevel t < 0 := by
    rw [suppLevel, npMax0d]
    exact ht
  rw [chcentersE, boxFilter5_zero]
  split
  · rfl
  · rename_i hno
    exfalso
    apply hno
    refine ⟨((0 : ℤ), (0 : ℤ)), ?_, ?_⟩
    · exact_mod_cast mem_winList Mdim Ndim 0 0 hM hN
    · show (0 : ℝ) < 0 - suppLevel t
      linarith

/-- With a zero accumulator magnitude and a nonnegative suppression level
(any threshold whose spacing does not exceed it), `chcenters` returns empty
centre and metric sequences. -/
theorem chcentersE_zero_ok (Mdim Ndim : ℕ) (hM : 0 < Mdim) (hN : 0 < Ndim) (t : ℝ)
    (ht : 0 ≤ t - npSpacingR t) :
    chcentersE (fun _ _ => 0) Mdim Ndim t = .ok ([], []) := by
  have hsupp : 0 ≤ suppLevel t := by
    rw [suppLevel, npMax0d]
    exact ht
  rw [chcentersE, boxFilter5_zero]
  split
  · rename_i hyes
    exfalso
    obtain ⟨p, _, hlt⟩ := hyes
    have hlt2 : (0 : ℝ) < 0 - suppLevel t := hlt
    linarith
  · dsimp only
    have hseed : (fun (r c : ℤ) => (0 : ℝ) - suppLevel t)
        = (fun (_ _ : ℤ) => -(suppLevel t)) := by
      funext r c
      ring
    rw [hseed, reconstructDil_const _ (by linarith), maxFilter3_const]
    have hmx : listMaxD ((winList Mdim Ndim).map
        (fun p => (fun (_ _ : ℤ) => -(suppLevel t)) p.1 p.2)) = -(suppLevel t) := by
      apply listMaxD_all_eq
      · intro x hx
        obtain ⟨p, _, hp⟩ := List.mem_map.mp hx
        exact hp.symm
      · intro hnil
        exact winList_ne_nil Mdim Ndim hM hN (List.map_eq_nil_iff.mp hnil)
    rw [hmx]
    rw [labelComponents_empty _ _ _ ?hbw]
    case hbw =>
      intro r c
      show ¬ (-(suppLevel t) / 3 < -(suppLevel t))
      intro hcon
      nlinarith
    simp

/-- `imfindcircles` on a flat image with a sensitivity below 1: empty
centre, radius and metric sequences, and no error. -/
theorem imfindcirclesE_flat_ok (otsu : (ℤ → ℤ → ℝ) → ℝ) (v : ℝ) (Mdim Ndim : ℕ)
    (hM : 0 < Mdim) (hN : 0 < Ndim) (rmin rmax : ℚ) (s : ℝ)
    (hs : npArange rmin (rmax + 1/10000) (1/2) ≠ [])
    (hstep : 1000000 / (npArange rmin (rmax + 1/10000) (1/2)).length ≠ 0)
    (hsupp : 0 ≤ (1 - s) - npSpacingR (1 - s)) :
    imfindcirclesE otsu (constImg v) Mdim Ndim rmin rmax s = .ok ⟨[], [], []⟩ := by
  rw [imfindcirclesE, chaccumE_flat otsu v Mdim Ndim hM hN rmin rmax hs hstep]
  dsimp only
  have habs : (fun (r c : ℤ) => (Complex.abs (0 : ℂ) : ℝ)) = (fun (_ _ : ℤ) => (0 : ℝ)) := by
    funext r c
    simp
  rw [habs, chcentersE_zero_ok Mdim Ndim hM hN (1 - s) hsupp]
  rfl

/-- `imfindcircles` on a flat image with sensitivity 1: the suppression
level is negative and the pipeline raises instead of returning. -/
theorem imfindcirclesE_flat_err (otsu : (ℤ → ℤ → ℝ) → ℝ) (v : ℝ) (Mdim Ndim : ℕ)
    (hM : 0 < Mdim) (hN : 0 < Ndim) (rmin rmax : ℚ) (s : ℝ)
    (hs : npArange rmin (rmax + 1/10000) (1/2) ≠ [])
    (hstep : 1000000 / (npArange rmin (rmax + 1/10000) (1/2)).length ≠ 0)
    (hsupp : (1 - s) - npSpacingR (1 - s) < 0) :
    imfindcirclesE otsu (constImg v) Mdim Ndim rmin rmax s = .error .valueError := by
  rw [imfindcirclesE, chaccumE_flat otsu v Mdim Ndim hM hN rmin rmax hs hstep]
  dsimp only
  have habs : (fun (r c : ℤ) => (Complex.abs (0 : ℂ) : ℝ)) = (fun (_ _ : ℤ) => (0 : ℝ)) := by
    funext r c
    simp
  rw [habs, chcentersE_zero_err Mdim Ndim hM hN (1 - s) hsupp]

/-! Claim theorems. -/

/-- C2: the claim states that the chunking of `chaccum` processes every edge
pixel exactly once and that the final accumulator is independent of the
chunk size.  This is false: the chunk slice `Ex[i : min(i+xcStep-1, lenE)]`
drops the last index of every full-size chunk (a MATLAB inclusive-range
off-by-one), so with 3 edge pixels the loop processes indices `[0, 2]` at
chunk step 2 (the computed step for 500000 radius samples), nothing at all
at step 1, and all of `[0, 1, 2]` only when a single chunk covers
everything — different chunk sizes accumulate different vote sets. -/
theorem c2_chunking_drops_pixels :
    xcChunkIndices 4 3 = [0, 1, 2] ∧ xcChunkIndices 2 3 = [0, 2] ∧
    xcChunkIndices 1 3 = [] ∧ xcChunkIndices 2 3 ≠ xcChunkIndices 4 3 := by
  decide

/-- C5 (counterexample): a 1-D input is returned unchanged by
`getGrayImage` — the pipeline performs no dimensionality validation and no
`InvalidImage` error exists, contradicting the claim that non-2-D/3-D input
fails with `InvalidImage`. -/
theorem c5_counterexample :
    getGrayImage id ⟨[5], false, [1, 2, 3, 4, 5]⟩ = ⟨[5], false, [1, 2, 3, 4, 5]⟩ := by
  rfl

/-- C5 (amended): for every input array that is neither 2-D nor 3-D,
`getGrayImage` returns it unchanged (no `InvalidImage` validation exists;
such input only fails later, inside the gradient convolution, with a
generic library error). -/
theorem c5_gray_passthrough (cvt : NpArr → NpArr) (img : NpArr)
    (h2 : img.shape.length ≠ 2) (h3 : img.shape.length ≠ 3) :
    getGrayImage cvt img = img := by
  rw [getGrayImage, if_neg h3, if_neg h2]

/-- C5 (witness): the amended claim at the concrete 1-D array. -/
theorem c5_gray_passthrough_witness :
    ((⟨[5], false, [1, 2, 3, 4, 5]⟩ : NpArr).shape.length ≠ 2) ∧
    ((⟨[5], false, [1, 2, 3, 4, 5]⟩ : NpArr).shape.length ≠ 3) ∧
    getGrayImage id ⟨[5], false, [1, 2, 3, 4, 5]⟩ = ⟨[5], false, [1, 2, 3, 4, 5]⟩ :=
  ⟨by decide, by decide, c5_gray_passthrough id _ (by decide) (by decide)⟩

/-- C7: the claim states the suppression level equals
`max(accumThresh - eps(accumThresh), 0)` and is never negative.  The code
computes `np.max(x, 0)`, whose second argument is the reduction `axis`, not
an elementwise clamp, so the level is `accumThresh - spacing(accumThresh)`
unclamped: at `accumThresh = 0` (sensitivity 1) it is negative and differs
from the claimed value. -/
theorem c7_suppression_negative :
    suppLevel 0 < 0 ∧ suppLevel 0 ≠ max (0 - npSpacingR 0) 0 := by
  have h : npSpacingR 0 = (2 : ℝ) ^ (-1074 : ℤ) := if_pos rfl
  have hp : (0 : ℝ) < (2 : ℝ) ^ (-1074 : ℤ) := by positivity
  have hs : suppLevel 0 = -((2 : ℝ) ^ (-1074 : ℤ)) := by
    rw [suppLevel, npMax0d, h]
    ring
  constructor
  · rw [hs]
    linarith
  · rw [hs, h, zero_sub, max_eq_right (by linarith)]
    intro hc
    rw [neg_eq_zero] at hc
    exact hp.ne' hc

/-- C8 (counterexample): the round-trip fails at the first radius sample.
With samples `[1, 2]` and `r = 1`, the injected phase is `-π`, the cell is
`exp(-iπ) = -1`, `np.angle` returns `+π`, and the decoder outputs `2`:
off by 1 > 0.5 from the true radius 1. -/
theorem c8_counterexample :
    chradiiphcode [(1, 1)] (fun _ _ => Complex.exp ((phiCode 1 1 2) * Complex.I)) 1 2 = [2] ∧
    ¬ |(2 : ℝ) - 1| ≤ 1 / 2 := by
  constructor
  · have hphi : phiCode 1 1 2 = -Real.pi := by
      rw [phiCode, Real.log_one]
      simp
    have hcell : Complex.exp ((phiCode 1 1 2 : ℝ) * Complex.I) = -1 := by
      rw [hphi]
      push_cast
      rw [neg_mul, Complex.exp_neg, Complex.exp_pi_mul_I]
      norm_num
    simp only [chradiiphcode, List.map]
    rw [hcell]
    have harg : Complex.arg (-1 : ℂ) = Real.pi := Complex.arg_neg_one
    rw [harg, Real.log_one]
    have hdiv : (Real.pi + Real.pi) / (2 * Real.pi) = 1 := by
      field_simp
      ring
    rw [sub_zero, hdiv, one_mul, add_zero, Real.exp_log (by norm_num : (0:ℝ) < 2)]
  · rw [show |(2:ℝ) - 1| = 1 by norm_num]
    norm_num

/-- C8 (amended): for every strictly increasing sample endpoint pair and
every radius `r` strictly after the first sample (`rmin < r ≤ rmax`), a cell
holding the unit complex value with phase `phi(r)` decodes back to exactly
`r` (in particular within 0.5); only `r = rmin`, whose phase `-π` wraps to
`+π`, decodes to `rmax` instead. -/
theorem c8_phase_roundtrip_exact (r rmin rmax : ℝ)
    (h0 : 0 < rmin) (h1 : rmin < r) (h2 : r ≤ rmax) :
    chradiiphcode [(1, 1)] (fun _ _ => Complex.exp ((phiCode r rmin rmax) * Complex.I))
      rmin rmax = [r] := by
  have hrr : rmin < rmax := h1.trans_le h2
  have hL : 0 < Real.log rmax - Real.log rmin :=
    sub_pos.mpr (Real.log_lt_log h0 hrr)
  set u := (Real.log r - Real.log rmin) / (Real.log rmax - Real.log rmin) with hu
  have hu0 : 0 < u := div_pos (sub_pos.mpr (Real.log_lt_log h0 h1)) hL
  have hu1 : u ≤ 1 := by
    rw [hu, div_le_one hL]
    have := Real.log_le_log (h0.trans h1) h2
    linarith
  have hθ : phiCode r rmin rmax = u * (2 * Real.pi) - Real.pi := by
    rw [phiCode, hu]
  have hIoc : phiCode r rmin rmax ∈ Set.Ioc (-Real.pi) Real.pi := by
    rw [hθ]
    constructor
    · nlinarith [Real.pi_pos]
    · nlinarith [Real.pi_pos]
  have harg : Complex.arg (Complex.exp ((phiCode r rmin rmax : ℝ) * Complex.I))
      = phiCode r rmin rmax := by
    rw [Complex.exp_mul_I]
    exact Complex.arg_cos_add_sin_mul_I hIoc
  simp only [chradiiphcode, List.map]
  rw [harg, hθ]
  have hdiv : (u * (2 * Real.pi) - Real.pi + Real.pi) / (2 * Real.pi) = u := by
    rw [sub_add_cancel]
    field_simp
  rw [hdiv, hu, div_mul_cancel₀ _ hL.ne']
  rw [sub_add_cancel, Real.exp_log (h0.trans h1)]

/-- C8 (witness): the amended round-trip at `r = 2`, samples `[1, 2]`. -/
theorem c8_phase_roundtrip_witness :
    (0 : ℝ) < 1 ∧ (1 : ℝ) < 2 ∧ (2 : ℝ) ≤ 2 ∧
    chradiiphcode [(1, 1)] (fun _ _ => Complex.exp ((phiCode 2 1 2) * Complex.I)) 1 2 = [2] :=
  ⟨by norm_num, by norm_num, le_refl 2,
    c8_phase_roundtrip_exact 2 1 2 (by norm_num) (by norm_num) (le_refl 2)⟩

/-- C1: the claim states radii are decoded from the phase of the COMPLEX
accumulator at each centre.  In the code, `imfindcircles` rebinds
`accumMatrix = abs(accumMatrix)` before calling `chradiiphcode`, so the
decoder reads `angle` of a nonnegative real matrix, which is identically 0:
every decoded radius is `√(rmin·rmax)`, independent of the accumulated
phase at the centre. -/
theorem c1_radius_ignores_phase (Acc : ℤ → ℤ → ℂ) (centers : List (ℝ × ℝ))
    (rmin rmax : ℝ) (h0 : 0 < rmin) (h1 : rmin ≤ rmax) :
    chradiiphcode centers (absMatrixC Acc) rmin rmax
      = centers.map (fun _ => Real.sqrt (rmin * rmax)) :=
  chradiiphcode_absMatrix Acc centers rmin rmax h0 h1

/-- C1 (witness): a cell holding `i` (phase π/2) still decodes to
`√(1·4) = 2`, not to the phase-mapped radius. -/
theorem c1_radius_ignores_phase_witness :
    (0 : ℝ) < 1 ∧ (1 : ℝ) ≤ 4 ∧
    chradiiphcode [(1, 1)] (absMatrixC (fun _ _ => Complex.I)) 1 4
      = [Real.sqrt (1 * 4)] :=
  ⟨by norm_num, by norm_num,
    c1_radius_ignores_phase (fun _ _ => Complex.I) [(1, 1)] 1 4 (by norm_num) (by norm_num)⟩

theorem npRoundR_one : npRoundR (1 : ℝ) = 1 := by
  rw [npRoundR, show ⌊(1 : ℝ)⌋ = 1 from Int.floor_one]
  norm_num

theorem npRoundR_two : npRoundR (2 : ℝ) = 2 := by
  have hf : ⌊(2 : ℝ)⌋ = 2 := by
    norm_num
  rw [npRoundR, hf]
  norm_num

theorem npRoundR_half : npRoundR (1/2 : ℝ) = 0 := by
  have hf : ⌊(1/2 : ℝ)⌋ = 0 := by
    rw [Int.floor_eq_zero_iff]
    constructor
    · norm_num
    · norm_num
  rw [npRoundR, hf]
  norm_num

/-- C3: the claim says an in-bounds rounded candidate `(x, y)` receives its
weight at exactly that cell and out-of-bounds candidates are discarded.
Counterexample: one edge pixel at `(row, col) = (2, 2)` of a 3×3 image with
unit gradient direction `(1, 0)` and radius samples `[1, 3/2]` yields the
in-bounds candidates `(x, y) = (1, 2)` and `(0, 2)`; the code leaves both
cells `(2, 1)` and `(1, 2)` at zero — the weight of the first candidate lands at
the shifted cell `(1, 0)` (the `accum` 1-indexed `-1` shift applied to
0-indexed data), and the second candidate is dropped by the `xc >= 1`
test even though column 0 is in bounds. -/
theorem c3_scatter_shifted_and_dropped :
    accum ((chunkPairs (npArange 1 (3/2 + 1/10000) (1/2))
          (w0List (npArange 1 (3/2 + 1/10000) (1/2)))
          (fun _ _ => 1) (fun _ _ => 0) (fun _ _ => 1) [((2 : ℤ), (2 : ℤ))]).filter
        (fun p => insideDomain 3 3 p)) 2 1 = 0 ∧
    accum ((chunkPairs (npArange 1 (3/2 + 1/10000) (1/2))
          (w0List (npArange 1 (3/2 + 1/10000) (1/2)))
          (fun _ _ => 1) (fun _ _ => 0) (fun _ _ => 1) [((2 : ℤ), (2 : ℤ))]).filter
        (fun p => insideDomain 3 3 p)) 1 2 = 0 ∧
    accum ((chunkPairs (npArange 1 (3/2 + 1/10000) (1/2))
          (w0List (npArange 1 (3/2 + 1/10000) (1/2)))
          (fun _ _ => 1) (fun _ _ => 0) (fun _ _ => 1) [((2 : ℤ), (2 : ℤ))]).filter
        (fun p => insideDomain 3 3 p)) 1 0 ≠ 0 := by
  rw [samples_1_32]
  have harg1 : ((2 : ℤ) : ℝ) - ((1 : ℚ) : ℝ) * ((1 : ℝ) / (1 : ℝ)) = 1 := by
    push_cast
    norm_num
  have harg2 : ((2 : ℤ) : ℝ) - (((3 : ℚ)/2 : ℚ) : ℝ) * ((1 : ℝ) / (1 : ℝ)) = 1/2 := by
    push_cast
    norm_num
  have harg3 : ((2 : ℤ) : ℝ) - ((1 : ℚ) : ℝ) * ((0 : ℝ) / (1 : ℝ)) = 2 := by
    push_cast
    norm_num
  have harg4 : ((2 : ℤ) : ℝ) - (((3 : ℚ)/2 : ℚ) : ℝ) * ((0 : ℝ) / (1 : ℝ)) = 2 := by
    push_cast
    norm_num
  have hpairs : chunkPairs [1, 3/2] (w0List [1, 3/2])
      (fun _ _ => 1) (fun _ _ => 0) (fun _ _ => 1) [((2 : ℤ), (2 : ℤ))]
      = [⟨1, 2, (w0List [1, 3/2]).headI⟩, ⟨0, 2, ((w0List [1, 3/2]).getLastD 0)⟩] := by
    obtain ⟨a, b, hab⟩ : ∃ a b : ℂ, w0List [1, 3/2] = [a, b] := ⟨_, _, rfl⟩
    rw [hab]
    simp only [chunkPairs, List.flatMap_cons, List.flatMap_nil, List.append_nil,
      List.zip_cons_cons, List.zip_nil_right, List.map_cons, List.map_nil]
    rw [harg1, harg2, harg3, harg4, npRoundR_one, npRoundR_two, npRoundR_half]
    simp
  rw [hpairs]
  have hfil : ([⟨1, 2, (w0List [1, 3/2]).headI⟩,
      ⟨0, 2, ((w0List [1, 3/2]).getLastD 0)⟩] : List VotePair).filter
        (fun p => insideDomain 3 3 p)
      = [⟨1, 2, (w0List [1, 3/2]).headI⟩] := by
    simp only [List.filter_cons, List.filter_nil]
    norm_num [insideDomain]
  rw [hfil]
  have hw1 : (w0List [1, 3/2]).headI ≠ 0 := by
    rw [w0List]
    simp only [List.map_cons, List.headI]
    apply div_ne_zero (Complex.exp_ne_zero _)
    rw [Complex.ofReal_ne_zero]
    positivity
  refine ⟨?_, ?_, ?_⟩
  · simp [accum]
  · simp [accum]
  · simp only [accum, List.filter_cons, List.filter_nil]
    norm_num
    exact hw1

/-- C4 (counterexample): `minRadius = 0` is an invalid range per the claim,
yet `chaccum` runs to completion and returns an accumulator — there is no
fail-fast `ConfigurationError` anywhere in the pipeline. -/
theorem c4_no_validation :
    chaccumE otsu0 (constImg (1/2)) 3 3 0 1 true = .ok (fun _ _ => 0, fun _ _ => 0) :=
  chaccumE_flat otsu0 (1/2) 3 3 (by norm_num) (by norm_num) 0 1
    (by rw [samples_0_1]; simp)
    (by rw [samples_0_1]; norm_num)

/-- C4 (amended): the code performs no radius-range validation.  Ranges
with `minRadius <= 0`, or with a single sample, proceed into accumulation
without any error; only when the sampled radius list is empty
(`maxRadius + 0.0001 <= minRadius`) does the run abort — with an index
error at the `lnR[0]` access, not a `ConfigurationError`. -/
theorem c4_empty_range_index_error (otsu : (ℤ → ℤ → ℝ) → ℝ) (A : ℤ → ℤ → ℝ)
    (Mdim Ndim : ℕ) (rmin rmax : ℚ) (bright : Bool)
    (h : rmax + 1/10000 ≤ rmin) :
    chaccumE otsu A Mdim Ndim rmin rmax bright = .error .indexError :=
  chaccumE_empty_range otsu A Mdim Ndim rmin rmax bright h

/-- C4 (witness): the empty-range index error at `[minR, maxR] = [2, 1]`. -/
theorem c4_empty_range_witness :
    ((1 : ℚ) + 1/10000 ≤ 2) ∧
    chaccumE otsu0 (constImg 0) 3 3 2 1 true = .error .indexError :=
  ⟨by norm_num,
    c4_empty_range_index_error otsu0 (constImg 0) 3 3 2 1 true (by norm_num)⟩

/-- C6: the claim says a flat image yields empty outputs without error for
every sensitivity in (0,1].  At sensitivity exactly 1 the suppression level
is `-spacing(0) < 0` (the `np.max` axis slip), the reconstruction seed
exceeds its mask, and the pipeline raises instead of returning. -/
theorem c6_flat_sensitivity_one_raises :
    imfindcirclesE otsu0 (constImg (1/2)) 4 4 1 2 1 = .error .valueError := by
  apply imfindcirclesE_flat_err otsu0 (1/2) 4 4 (by norm_num) (by norm_num) 1 2 1
  · rw [samples_1_2]
    simp
  · rw [samples_1_2]
    norm_num
  · have h : npSpacingR (1 - 1 : ℝ) = (2 : ℝ) ^ (-1074 : ℤ) := by
      norm_num [npSpacingR]
    rw [h]
    have hp : (0 : ℝ) < (2 : ℝ) ^ (-1074 : ℤ) := by positivity
    linarith

/-- C9: the claim says raising the sensitivity never decreases the number
of candidates.  On a flat image, sensitivity 1/2 returns 0 candidates, but
sensitivity 1 (the top of the claimed range) returns nothing at all: the
negative suppression level makes the pipeline raise, so no count exists at
the higher sensitivity. -/
theorem c9_monotonicity_fails_at_one :
    imfindcirclesE otsu0 (constImg (1/3)) 5 5 1 2 (1/2) = .ok ⟨[], [], []⟩ ∧
    imfindcirclesE otsu0 (constImg (1/3)) 5 5 1 2 1 = .error .valueError := by
  constructor
  · apply imfindcirclesE_flat_ok otsu0 (1/3) 5 5 (by norm_num) (by norm_num) 1 2 (1/2)
    · rw [samples_1_2]
      simp
    · rw [samples_1_2]
      norm_num
    · have h : npSpacingR (1 - 1/2 : ℝ) = |(1 - 1/2 : ℝ)| * (2 : ℝ) ^ (-52 : ℤ) := by
        rw [npSpacingR, if_neg (by norm_num)]
      rw [h, show |(1 - 1/2 : ℝ)| = 1/2 by rw [abs_of_pos] <;> norm_num]
      nlinarith [two_zpow_neg52_lt_one, two_zpow_neg52_pos]
  · apply imfindcirclesE_flat_err otsu0 (1/3) 5 5 (by norm_num) (by norm_num) 1 2 1
    · rw [samples_1_2]
      simp
    · rw [samples_1_2]
      norm_num
    · have h : npSpacingR (1 - 1 : ℝ) = (2 : ℝ) ^ (-1074 : ℤ) := by
        norm_num [npSpacingR]
      rw [h]
      have hp : (0 : ℝ) < (2 : ℝ) ^ (-1074 : ℤ) := by positivity
      linarith

/-- C10: every radius `imfindcircles` returns lies in
`[minRadius, maxRadius]`.  This holds (vacuously strongly): because the
decoder reads the phase of the magnitude matrix, every returned radius is
exactly `√(minRadius·maxRadius)`, which lies inside the closed range. -/
theorem c10_radii_within_range (otsu : (ℤ → ℤ → ℝ) → ℝ) (A : ℤ → ℤ → ℝ)
    (Mdim Ndim : ℕ) (rmin rmax : ℚ) (s : ℝ) (res : CirclesResult)
    (h0 : 0 < rmin) (h1 : rmin ≤ rmax)
    (hres : imfindcirclesE otsu A Mdim Ndim rmin rmax s = .ok res) :
    ∀ r ∈ res.radii, ((rmin : ℝ)) ≤ r ∧ r ≤ ((rmax : ℝ)) := by
  have h0R : (0 : ℝ) < (rmin : ℝ) := by exact_mod_cast h0
  have h1R : ((rmin : ℝ)) ≤ (rmax : ℝ) := by exact_mod_cast h1
  have hlow : (rmin : ℝ) ≤ Real.sqrt ((rmin : ℝ) * (rmax : ℝ)) := by
    calc (rmin : ℝ) = Real.sqrt ((rmin : ℝ) * (rmin : ℝ)) :=
          (Real.sqrt_mul_self h0R.le).symm
      _ ≤ Real.sqrt ((rmin : ℝ) * (rmax : ℝ)) := Real.sqrt_le_sqrt (by nlinarith)
  have hhigh : Real.sqrt ((rmin : ℝ) * (rmax : ℝ)) ≤ (rmax : ℝ) := by
    calc Real.sqrt ((rmin : ℝ) * (rmax : ℝ))
        ≤ Real.sqrt ((rmax : ℝ) * (rmax : ℝ)) := Real.sqrt_le_sqrt (by nlinarith)
      _ = (rmax : ℝ) := Real.sqrt_mul_self (h0R.le.trans h1R)
  rw [imfindcirclesE] at hres
  cases hA : chaccumE otsu A Mdim Ndim rmin rmax true with
  | error e =>
    rw [hA] at hres
    exact absurd hres (by simp)
  | ok pr =>
    rw [hA] at hres
    obtain ⟨Acc, g⟩ := pr
    dsimp only at hres
    cases hC : chcentersE (fun r c => (Complex.abs (Acc r c) : ℝ)) Mdim Ndim (1 - s) with
    | error e =>
      rw [hC] at hres
      exact absurd hres (by simp)
    | ok cm =>
      rw [hC] at hres
      obtain ⟨cens, mets⟩ := cm
      dsimp only at hres
      injection hres with hres2
      subst hres2
      intro r hr
      dsimp only at hr
      rw [chradiiphcode_absMatrix Acc _ _ _ h0R h1R] at hr
      obtain ⟨c0, _, hval⟩ := List.mem_map.mp hr
      rw [← hval]
      exact ⟨hlow, hhigh⟩

/-- C10 (witness): the range invariant instantiated on a flat image with
range `[1, 2]` (where the result is empty and the claim holds trivially). -/
theorem c10_radii_within_range_witness :
    (0 : ℚ) < 1 ∧ (1 : ℚ) ≤ 2 ∧
    imfindcirclesE otsu0 (constImg (2/3)) 3 3 1 2 (1/2) = .ok ⟨[], [], []⟩ ∧
    (∀ r ∈ (CirclesResult.mk [] [] []).radii, ((1 : ℚ) : ℝ) ≤ r ∧ r ≤ ((2 : ℚ) : ℝ)) := by
  have hok : imfindcirclesE otsu0 (constImg (2/3)) 3 3 1 2 (1/2) = .ok ⟨[], [], []⟩ := by
    apply imfindcirclesE_flat_ok otsu0 (2/3) 3 3 (by norm_num) (by norm_num) 1 2 (1/2)
    · rw [samples_1_2]
      simp
    · rw [samples_1_2]
      norm_num
    · have h : npSpacingR (1 - 1/2 : ℝ) = |(1 - 1/2 : ℝ)| * (2 : ℝ) ^ (-52 : ℤ) := by
        rw [npSpacingR, if_neg (by norm_num)]
      rw [h, show |(1 - 1/2 : ℝ)| = 1/2 by rw [abs_of_pos] <;> norm_num]
      nlinarith [two_zpow_neg52_lt_one, two_zpow_neg52_pos]
  exact ⟨by norm_num, by norm_num, hok,
    c10_radii_within_range otsu0 (constImg (2/3)) 3 3 1 2 (1/2) ⟨[], [], []⟩
      (by norm_num) (by norm_num) hok⟩

end BrgShoe
